import Mathlib

/-!
Verification of the `taskmaster` dependency-aware task orchestrator
(`src/taskmaster/__init__.py`) against its natural-language specification.

The development shallowly embeds the orchestrator:

* task records (Python dicts) become the `TaskT` structure; the mutable
  per-task `status` strings are kept as Lean `String`s, exactly the strings
  the source compares against ("unassigned", "running", "success", ...);
* the stdout result protocol (`read_result`, the sentinel regex
  `== RESULT START ==\n(.*)\n== RESULT END ==`) is embedded over the list of
  stdout lines; since `.*` does not cross newlines, a match is exactly a line
  ending in the start sentinel, one payload line, and a line beginning with
  the end sentinel, at the earliest such position;
* `json.loads` is kept abstract as a `jsonParse : String → Option Payload`
  parameter (returning `none` exactly when `json.loads` would raise
  `ValueError`); payloads are modelled as association lists of fields, with
  the `"status"` field the one the scheduler reads back;
* the run loop (`Taskmaster.run`) and one task execution
  (`Taskmaster.run_task`) become the fuel-indexed executable `runLoop`;
  a wave (`asyncio.gather` over the ready list) is serialised in ready-list
  order, stopping at the first exception exactly as the gather propagates it;
  the claims settled on this model do not depend on intra-wave interleaving;
* timestamps (`datetime.now()`) are abstracted to "stamped" booleans.

Separate relational models cover the scheduler invariant (claim about
reachable states) and the `gather_with_concurrency` semaphore discipline.
-/

/-- Exceptions of the Python process model that escape `run_task`:
`AssertionError` from `assert proc.returncode == 0` (re-raised when not
forced), `TypeError` from `re.search(...)[1]` when the sentinel block is
missing, `ValueError` from `json.loads` on a malformed payload line. -/
inductive PyErr where
  | assertionError
  | typeError
  | valueError
  deriving DecidableEq, Repr

/-- A task record, embedding the Python task dict built by
`Taskmaster.make_task` plus the fields mutated by the scheduler/executor.
`parents` holds indices into the task list; result-payload fields merged by
`t.update(r)` are kept in `fields`; `hasStart`/`hasEnd` abstract the
`t["start"]`/`t["end"]` timestamp stamps. -/
structure TaskT where
  script : String
  status : String
  parents : List Nat
  fields : List (String × String)
  hasStart : Bool
  hasEnd : Bool
  deriving DecidableEq, Repr

/-- Fresh task as produced by `Taskmaster.make_task`: status "unassigned",
no parents, no result fields, no timestamps. -/
def mkTask (script : String) (parents : List Nat) : TaskT :=
  { script := script
    status := "unassigned"
    parents := parents
    fields := []
    hasStart := false
    hasEnd := false }

/-- Outcome of one child process: exit code, captured stdout (as lines, after
`decode().strip()`), captured stderr. -/
structure ProcResult where
  returncode : Int
  stdoutLines : List String
  stderr : String

/-- Embedding of `Taskmaster.is_changed`: the fingerprint comparison in the
source is commented out and the body is just `return True`. -/
def is_changed (_t : TaskT) : Bool :=
  true

/-- All parents of `t` have status "success" (the dependency check inside
`Taskmaster.is_ready`). Out-of-range parent indices never test as success. -/
def parentsSuccess (st : List TaskT) (t : TaskT) : Bool :=
  t.parents.all fun j => ((st.get? j).map (fun p => p.status)).getD "missing" == "success"

/-- Embedding of `Taskmaster.is_ready`: not yet ran/running, no pending
dependencies, and `forced or self.is_changed(t)`. The short-circuit branch of
the source (marking descendants "unchanged") is the `else` of that final
condition and is unreachable because `is_changed` returns `True`; the
relational scheduler model below carries it explicitly. -/
def is_ready (st : List TaskT) (forced : Bool) (t : TaskT) : Bool :=
  t.status == "unassigned" && parentsSuccess st t && (forced || is_changed t)

/-- String suffix test over the character lists (kernel-computable version
of `String.endsWith`). -/
def strEndsWith (s post : String) : Bool :=
  post.data.isSuffixOf s.data

/-- String prefix test over the character lists (kernel-computable version
of `String.startsWith`). -/
def strStartsWith (s pre : String) : Bool :=
  pre.data.isPrefixOf s.data

/-- First sentinel-delimited block in the stdout lines: the earliest window
of three consecutive lines whose first ends with `== RESULT START ==` and
whose third starts with `== RESULT END ==`; the captured group is the middle
line (the regex `(.*)` cannot cross newlines). -/
def findResultBlock : List String → Option String
  | l0 :: l1 :: l2 :: rest =>
    if strEndsWith l0 "== RESULT START ==" && strStartsWith l2 "== RESULT END ==" then
      some l1
    else
      findResultBlock (l1 :: l2 :: rest)
  | _ => none

/-- Embedding of `read_result`: `re.search(exp, raw)[1]` raises `TypeError`
when there is no match (`None[1]`); `json.loads` raises `ValueError` on a
malformed payload line (abstracted by `jsonParse` returning `none`). -/
def read_result (jsonParse : String → Option (List (String × String)))
    (rawLines : List String) : Except PyErr (List (String × String)) :=
  match findResultBlock rawLines with
  | none => .error .typeError
  | some line =>
    match jsonParse line with
    | none => .error .valueError
    | some payload => .ok payload

/-- Lookup of a payload field by key. -/
def lookupField (k : String) (p : List (String × String)) : Option String :=
  (p.find? fun kv => kv.1 == k).map fun kv => kv.2

/-- One `dict.update` assignment: overwrite the value when the key is
present, append otherwise. -/
def setField (fields : List (String × String)) (kv : String × String) :
    List (String × String) :=
  if fields.any fun kv0 => kv0.1 == kv.1 then
    fields.map fun kv0 => if kv0.1 == kv.1 then (kv0.1, kv.2) else kv0
  else
    fields ++ [kv]

/-- Embedding of `t.update(r)` over the result fields. -/
def mergeFields (fields : List (String × String)) (p : List (String × String)) :
    List (String × String) :=
  p.foldl setField fields

/-- Embedding of one `Taskmaster.run_task` call, given the process outcome.
The source stamps `t["start"]` and sets `t["status"] = "running"` right after
spawning, stamps `t["end"]` after `communicate`, then either runs
`on_task_complete` (exit 0: merge the parsed payload into the task — the
merged `"status"` field is the only way the status leaves the intermediate
"running", hence the `getD "running"` default below) or `on_task_fail`
(non-zero exit: status "failed", and the `AssertionError` is re-raised
unless the run is forced). A missing/malformed block escapes
`on_task_complete` as `TypeError`/`ValueError`, leaving the status at
"running". Returns the task as it stands when `run_task` returns or its
exception escapes, paired with that exception if any. -/
def run_task (jsonParse : String → Option (List (String × String)))
    (forced : Bool) (res : ProcResult) (t : TaskT) : TaskT × Option PyErr :=
  if res.returncode = 0 then
    match read_result jsonParse res.stdoutLines with
    | .ok payload =>
      ({ t with
          hasStart := true
          hasEnd := true
          fields := mergeFields t.fields payload
          status := (lookupField "status" payload).getD "running" }, none)
    | .error e =>
      ({ t with hasStart := true, hasEnd := true, status := "running" }, some e)
  else
    ({ t with hasStart := true, hasEnd := true, status := "failed" },
      if forced then none else some .assertionError)

/-- Embedding of one wave (`asyncio.gather` over `run_task` coroutines for
the ready indices), serialised in ready-list order: each task runs in turn
and the first escaping exception propagates out of the gather, leaving later
tasks of the wave untouched. -/
def runWave (jsonParse : String → Option (List (String × String)))
    (forced : Bool) (oracle : Nat → ProcResult) :
    List TaskT → List Nat → List TaskT × Option PyErr
  | st, [] => (st, none)
  | st, i :: rest =>
    match st.get? i with
    | none => runWave jsonParse forced oracle st rest
    | some t =>
      match run_task jsonParse forced (oracle i) t with
      | (t1, some e) => (st.set i t1, some e)
      | (t1, none) => runWave jsonParse forced oracle (st.set i t1) rest

/-- Indices of the ready tasks, in task-list order, as computed by the list
comprehension `[t for t in tasks if self.is_ready(t, forced)]`. -/
def readyIdxs (st : List TaskT) (forced : Bool) : List Nat :=
  (List.range st.length).filter fun i =>
    match st.get? i with
    | some t => is_ready st forced t
    | none => false

/-- The skip sweep of the run loop: every task still "unassigned" when no
task is ready becomes "skipped". -/
def sweepSkipped (st : List TaskT) : List TaskT :=
  st.map fun t => if t.status == "unassigned" then { t with status := "skipped" } else t

/-- Embedding of the `while True` scheduler loop of `Taskmaster.run`,
fuel-indexed (fuel 0 returns the marker "fuel"; the source loop would keep
iterating). When no task is ready the sweep runs and the run finishes
("finished"); otherwise the wave runs and an escaping `AssertionError` ends
the run as "halted" (`except AssertionError`), any other exception as
"crashed" (the bare `except`, which re-raises). -/
def runLoop (jsonParse : String → Option (List (String × String)))
    (forced : Bool) (oracle : Nat → ProcResult) :
    Nat → List TaskT → List TaskT × String
  | 0, st => (st, "fuel")
  | fuel + 1, st =>
    let ready := readyIdxs st forced
    if ready.isEmpty then
      (sweepSkipped st, "finished")
    else
      match runWave jsonParse forced oracle st ready with
      | (st1, none) => runLoop jsonParse forced oracle fuel st1
      | (st1, some .assertionError) => (st1, "halted")
      | (st1, some _) => (st1, "crashed")

/-! Concrete instances used by the scenario theorems below. -/

/-- Concrete restriction of `json.loads` to the payload lines emitted by the
scenario child processes: a JSON object with a "status" field, a JSON object
with only a "rows" field, and `none` (a `ValueError`) on everything else. -/
def jsonParse0 : String → Option (List (String × String)) :=
  fun s =>
    if s = "\x7b\"status\": \"success\"\x7d" then some [("status", "success")]
    else if s = "\x7b\"rows\": \"5\"\x7d" then some [("rows", "5")]
    else none

/-- Process outcome: exit 0 with a well-formed sentinel block whose payload
reports status "success" (the shape `dump_result` emits). -/
def okSuccessProc : ProcResult :=
  { returncode := 0
    stdoutLines := ["log line", "== RESULT START ==", "\x7b\"status\": \"success\"\x7d", "== RESULT END =="]
    stderr := "" }

/-- Process outcome: exit 0 with a well-formed sentinel block whose payload
carries a "rows" field but no "status" field. -/
def okRowsProc : ProcResult :=
  { returncode := 0
    stdoutLines := ["== RESULT START ==", "\x7b\"rows\": \"5\"\x7d", "== RESULT END =="]
    stderr := "" }

/-- Process outcome: non-zero exit. -/
def badExitProc : ProcResult :=
  { returncode := 1, stdoutLines := [], stderr := "Traceback" }

/-- Process outcome: exit 0 whose stdout has no sentinel block at all. -/
def noBlockProc : ProcResult :=
  { returncode := 0, stdoutLines := ["hello"], stderr := "" }

/-- Four-task graph: an independent chain d → e and a chain a → b
(two jobs, two steps each); indices 0:d, 1:e, 2:a, 3:b. -/
def graphDEAB : List TaskT :=
  [mkTask "d.py" [], mkTask "e.py" [0], mkTask "a.py" [], mkTask "b.py" [2]]

/-- Oracle for `graphDEAB`: a (index 2) exits non-zero, everything else
succeeds with a well-formed "success" payload. -/
def oracleDEAB : Nat → ProcResult :=
  fun i => if i = 2 then badExitProc else okSuccessProc

/-! Helper lemmas about exceptions escaping a forced run. -/

/-- The result reader can only raise `TypeError` or `ValueError`, never
`AssertionError`. -/
theorem read_result_ne_assertionError
    (jp : String → Option (List (String × String))) (raw : List String) :
    read_result jp raw ≠ Except.error PyErr.assertionError := by
  unfold read_result
  split
  · simp
  · split
    · simp
    · simp

/-- In a forced run, the only exceptions that escape `run_task` are errors of
the result reader: the non-zero-exit branch swallows the `AssertionError`
(`if not forced: raise`). -/
theorem run_task_forced_exc_from_read_result
    (jp : String → Option (List (String × String))) (res : ProcResult) (t : TaskT)
    (e : PyErr) (h : (run_task jp true res t).2 = some e) :
    read_result jp res.stdoutLines = Except.error e := by
  unfold run_task at h
  by_cases h0 : res.returncode = 0
  · rw [if_pos h0] at h
    rcases hr : read_result jp res.stdoutLines with err | p
    · rw [hr] at h
      simp at h
      rw [← h]
    · rw [hr] at h
      simp at h
  · rw [if_neg h0] at h
    simp at h

/-- A forced wave never propagates an `AssertionError`. -/
theorem runWave_forced_no_assertionError
    (jp : String → Option (List (String × String))) (oracle : Nat → ProcResult) :
    ∀ (idxs : List Nat) (st st1 : List TaskT) (e : PyErr),
      runWave jp true oracle st idxs = (st1, some e) → e ≠ PyErr.assertionError := by
  intro idxs
  induction idxs with
  | nil =>
    intro st st1 e h
    simp [runWave] at h
  | cons i rest ih =>
    intro st st1 e h
    unfold runWave at h
    cases hg : st.get? i with
    | none =>
      rw [hg] at h
      exact ih st st1 e h
    | some t =>
      rw [hg] at h
      dsimp only at h
      rcases hrt : run_task jp true (oracle i) t with ⟨t1, exc⟩
      rw [hrt] at h
      cases exc with
      | none =>
        exact ih (st.set i t1) st1 e h
      | some e1 =>
        simp at h
        rcases h with ⟨_, h2⟩
        intro hcontra
        have hread := run_task_forced_exc_from_read_result jp (oracle i) t e1
          (by rw [hrt])
        rw [h2, hcontra] at hread
        exact read_result_ne_assertionError jp (oracle i).stdoutLines hread

/-- A forced run never ends "halted": the only route to "halted" is an
escaping `AssertionError` (`except AssertionError` in `Taskmaster.run`),
which forced `run_task` suppresses. -/
theorem runLoop_forced_never_halted
    (jp : String → Option (List (String × String))) (oracle : Nat → ProcResult) :
    ∀ (fuel : Nat) (st : List TaskT),
      (runLoop jp true oracle fuel st).2 ≠ "halted" := by
  intro fuel
  induction fuel with
  | zero =>
    intro st
    simp [runLoop]
  | succ n ih =>
    intro st
    unfold runLoop
    dsimp only
    by_cases hr : (readyIdxs st true).isEmpty
    · rw [if_pos hr]
      simp
    · rw [if_neg hr]
      rcases hw : runWave jp true oracle st (readyIdxs st true) with ⟨st1, exc⟩
      cases exc with
      | none => exact ih st1
      | some e =>
        have hne := runWave_forced_no_assertionError jp oracle (readyIdxs st true) st st1 e hw
        cases e with
        | assertionError => exact absurd rfl hne
        | typeError => simp
        | valueError => simp

/-- Claim C1 counterexample. In the unforced run over the independent chains
d → e and a → b where a exits non-zero, the run does not keep scheduling and
never sweeps: the `AssertionError` re-raised by `run_task` ends the run as
"halted", e (the independent branch's second task) is never scheduled, and b
stays "unassigned" instead of being swept to "skipped" — refuting the claim
that in a run that is not forced the failure is isolated to the failing task
while independent branches keep running and the rest is swept to "skipped". -/
theorem c1_unforced_failure_halts_counterexample :
    (runLoop jsonParse0 false oracleDEAB 10 graphDEAB).2 = "halted"
    ∧ ((runLoop jsonParse0 false oracleDEAB 10 graphDEAB).1.map fun t => t.status)
        = ["success", "unassigned", "failed", "unassigned"] := by
  constructor
  · rfl
  · rfl

/-- Claim C1, amended: the described failure isolation holds for forced runs,
not unforced ones. A forced run never ends "halted" (failures never abort
scheduling), and in the forced run over d → e and a → b with a exiting
non-zero, a alone is "failed", the independent branch d, e still runs to
"success", b (a's descendant) is blocked and finally swept to "skipped", and
the run finishes normally. -/
theorem c1_forced_failure_isolation_amended :
    (∀ (jp : String → Option (List (String × String))) (oracle : Nat → ProcResult)
        (fuel : Nat) (st : List TaskT),
      (runLoop jp true oracle fuel st).2 ≠ "halted")
    ∧ (runLoop jsonParse0 true oracleDEAB 10 graphDEAB).2 = "finished"
    ∧ ((runLoop jsonParse0 true oracleDEAB 10 graphDEAB).1.map fun t => t.status)
        = ["success", "success", "failed", "skipped"] := by
  refine ⟨?_, rfl, rfl⟩
  intro jp oracle fuel st
  exact runLoop_forced_never_halted jp oracle fuel st

/-- Claim C2. A task whose subprocess exits 0 with no well-formed sentinel
block on stdout is not recorded as a per-task failure: `read_result` raises
`TypeError` (`re.search` returned `None` and `None[1]` is a `TypeError`),
which no handler in `run_task` catches, so the bare `except` of
`Taskmaster.run` marks the whole run "crashed" and re-raises; the task is
left in status "running", never "failed". -/
theorem c2_zero_exit_without_block_crashes :
    read_result jsonParse0 ["hello"] = Except.error PyErr.typeError
    ∧ (runLoop jsonParse0 false (fun _ => noBlockProc) 10 [mkTask "a.py" []]).2 = "crashed"
    ∧ ((runLoop jsonParse0 false (fun _ => noBlockProc) 10 [mkTask "a.py" []]).1.map
        fun t => t.status) = ["running"] := by
  exact ⟨rfl, rfl, rfl⟩

/-- Modelled from the spec (§4.3) and the commented-out body of
`Taskmaster.is_changed` in the source: no record of a last run counts as
changed; a missing or empty fingerprint on either side counts as changed;
otherwise the task is unchanged exactly when the current `input_md5s` equal
the ones recorded at the last success. -/
def is_changed_spec (lastRunInputMd5s : Option (List String))
    (inputMd5s : List String) : Bool :=
  match lastRunInputMd5s with
  | none => true
  | some prev =>
    if prev.isEmpty || inputMd5s.isEmpty then true
    else decide (inputMd5s ≠ prev)

/-- Fingerprint used by the claim C3 scenario: the recorded and current
`input_md5s` coincide. -/
def fp0 : List String := ["d41d8cd98f00b204e9800998ecf8427e"]

/-- Claim C3. Change detection is disabled in the code: the body of
`Taskmaster.is_changed` is commented out and the function returns `True` for
every task, so even a task whose fingerprint equals the one recorded at its
last success (where the spec-modelled detector reports unchanged) is judged
changed, spawns a subprocess in an unforced run, and no task ever ends
"unchanged": in the unforced two-task chain below both tasks are spawned
(`hasStart`) and end "success". -/
theorem c3_change_detection_disabled :
    is_changed_spec (some fp0) fp0 = false
    ∧ (∀ t : TaskT, is_changed t = true)
    ∧ (runLoop jsonParse0 false (fun _ => okSuccessProc) 10
        [mkTask "a.py" [], mkTask "b.py" [0]]).2 = "finished"
    ∧ ((runLoop jsonParse0 false (fun _ => okSuccessProc) 10
        [mkTask "a.py" [], mkTask "b.py" [0]]).1.map fun t => (t.status, t.hasStart))
        = [("success", true), ("success", true)]
    ∧ ((runLoop jsonParse0 false (fun _ => okSuccessProc) 10
        [mkTask "a.py" [], mkTask "b.py" [0]]).1.countP fun t => t.status == "unchanged")
        = 0 := by
  exact ⟨rfl, fun _ => rfl, rfl, rfl, rfl⟩

/-- Claim C4 counterexample. For a subprocess that exits 0 with a well-formed
sentinel block whose JSON payload has no "status" field, the executor merges
the fields and stamps start/end but does not set status "success": the task
is left in status "running" (the status only ever comes from the payload
itself). -/
theorem c4_no_status_field_counterexample :
    read_result jsonParse0 okRowsProc.stdoutLines = Except.ok [("rows", "5")]
    ∧ okRowsProc.returncode = 0
    ∧ (run_task jsonParse0 false okRowsProc (mkTask "a.py" [])).1.status = "running"
    ∧ (run_task jsonParse0 false okRowsProc (mkTask "a.py" [])).1.fields = [("rows", "5")]
    ∧ (run_task jsonParse0 false okRowsProc (mkTask "a.py" [])).1.hasStart = true
    ∧ (run_task jsonParse0 false okRowsProc (mkTask "a.py" [])).1.hasEnd = true := by
  exact ⟨rfl, rfl, rfl, rfl, rfl, rfl⟩

/-- Claim C4, amended: for every task whose subprocess exits 0 with a
well-formed result block, the executor merges the payload fields into the
task, stamps start and end, and lets no exception escape; the resulting
status is the payload's own "status" field when present and stays "running"
otherwise — the executor itself never sets "success". -/
theorem c4_merge_and_stamp_amended
    (jp : String → Option (List (String × String))) (forced : Bool)
    (res : ProcResult) (t : TaskT) (p : List (String × String))
    (h0 : res.returncode = 0)
    (hb : read_result jp res.stdoutLines = Except.ok p) :
    run_task jp forced res t =
      ({ t with
          hasStart := true
          hasEnd := true
          fields := mergeFields t.fields p
          status := (lookupField "status" p).getD "running" }, none) := by
  unfold run_task
  rw [if_pos h0, hb]

/-- Witness for the amended claim C4 at a concrete input: the payload
carries status "success", and the executor's result is the merged, stamped
task with that status. -/
theorem c4_merge_and_stamp_witness :
    run_task jsonParse0 true okSuccessProc (mkTask "a.py" []) =
      ({ mkTask "a.py" [] with
          hasStart := true
          hasEnd := true
          fields := mergeFields (mkTask "a.py" []).fields [("status", "success")]
          status := (lookupField "status" [("status", "success")]).getD "running" }, none) :=
  c4_merge_and_stamp_amended jsonParse0 true okSuccessProc (mkTask "a.py" [])
    [("status", "success")] rfl rfl

/-- Two-task chain a → b used by the claim C7 counterexample. -/
def graphAB : List TaskT :=
  [mkTask "a.py" [], mkTask "b.py" [0]]

/-- Claim C7 counterexample. In the unforced run over the chain a → b where
a exits non-zero, the run ends "halted" before the skip sweep is ever
reached, and b remains "unassigned" at run end — refuting the claim that at
the end of every run no task remains "unassigned". -/
theorem c7_halted_leaves_unassigned_counterexample :
    (runLoop jsonParse0 false (fun _ => badExitProc) 10 graphAB).2 = "halted"
    ∧ ((runLoop jsonParse0 false (fun _ => badExitProc) 10 graphAB).1.map
        fun t => t.status) = ["failed", "unassigned"] := by
  exact ⟨rfl, rfl⟩

/-- Property of a process outcome: whenever its stdout parses to a result
payload, the payload carries a "status" field different from "running" (the
protocol convention scripts follow, since the merged payload is the only
thing that moves a task out of "running" on the success path). -/
def payloadLeavesRunning (jp : String → Option (List (String × String)))
    (res : ProcResult) : Prop :=
  ∀ p, read_result jp res.stdoutLines = Except.ok p →
    (lookupField "status" p).getD "running" ≠ "running"

/-- Helper to discharge `payloadLeavesRunning` on concrete outcomes. -/
theorem payloadLeavesRunning_of_eq
    (jp : String → Option (List (String × String))) (res : ProcResult)
    (p0 : List (String × String))
    (h : read_result jp res.stdoutLines = Except.ok p0)
    (hne : (lookupField "status" p0).getD "running" ≠ "running") :
    payloadLeavesRunning jp res := by
  intro p hp
  rw [h] at hp
  injection hp with h2
  rw [← h2]
  exact hne

/-- A `run_task` call that lets no exception escape leaves the task in a
status other than "running", provided the payload reports a status other
than "running". -/
theorem run_task_not_running
    (jp : String → Option (List (String × String))) (forced : Bool)
    (res : ProcResult) (t : TaskT)
    (hpay : payloadLeavesRunning jp res)
    (hnone : (run_task jp forced res t).2 = none) :
    (run_task jp forced res t).1.status ≠ "running" := by
  unfold run_task at hnone ⊢
  by_cases h0 : res.returncode = 0
  · rw [if_pos h0] at hnone ⊢
    rcases hr : read_result jp res.stdoutLines with err | p
    · rw [hr] at hnone
      simp at hnone
    · dsimp only
      exact hpay p hr
  · rw [if_neg h0]
    dsimp only
    decide

/-- A wave that lets no exception escape leaves no task in status "running"
(tasks not in the wave keep their statuses). -/
theorem runWave_not_running
    (jp : String → Option (List (String × String))) (forced : Bool)
    (oracle : Nat → ProcResult)
    (hpay : ∀ i, payloadLeavesRunning jp (oracle i)) :
    ∀ (idxs : List Nat) (st st1 : List TaskT),
      runWave jp forced oracle st idxs = (st1, none) →
      (∀ t ∈ st, t.status ≠ "running") →
      ∀ t ∈ st1, t.status ≠ "running" := by
  intro idxs
  induction idxs with
  | nil =>
    intro st st1 h hst
    simp [runWave] at h
    subst h
    exact hst
  | cons i rest ih =>
    intro st st1 h hst
    unfold runWave at h
    cases hg : st.get? i with
    | none =>
      rw [hg] at h
      exact ih st st1 h hst
    | some t =>
      rw [hg] at h
      dsimp only at h
      rcases hrt : run_task jp forced (oracle i) t with ⟨t1, exc⟩
      rw [hrt] at h
      cases exc with
      | some e => simp at h
      | none =>
        refine ih (st.set i t1) st1 h ?_
        intro u hu
        rcases List.mem_or_eq_of_mem_set hu with hmem | heq
        · exact hst u hmem
        · rw [heq]
          have hnr := run_task_not_running jp forced (oracle i) t (hpay i) (by rw [hrt])
          rw [hrt] at hnr
          exact hnr

/-- Claim C7, amended: a run that ends normally (run status "finished", the
branch that performs the skip sweep) leaves no task "unassigned"; and
provided every result payload reports a status other than "running" and no
task is "running" to start with, no task is left "running" either. Runs that
end "halted"/"crashed" can leave tasks "unassigned" (the sweep never runs)
or "running". -/
theorem c7_finished_run_no_unassigned_no_running
    (jp : String → Option (List (String × String))) (forced : Bool)
    (oracle : Nat → ProcResult) (fuel : Nat) (st : List TaskT)
    (hrun : ∀ t ∈ st, t.status ≠ "running")
    (hpay : ∀ i, payloadLeavesRunning jp (oracle i))
    (hfin : (runLoop jp forced oracle fuel st).2 = "finished") :
    ∀ t ∈ (runLoop jp forced oracle fuel st).1,
      t.status ≠ "unassigned" ∧ t.status ≠ "running" := by
  induction fuel generalizing st with
  | zero => simp [runLoop] at hfin
  | succ n ih =>
    unfold runLoop at hfin ⊢
    dsimp only at hfin ⊢
    by_cases hr : (readyIdxs st forced).isEmpty
    · rw [if_pos hr] at hfin ⊢
      intro t ht
      rcases List.mem_map.mp ht with ⟨t0, ht0, rfl⟩
      by_cases hu : t0.status == "unassigned"
      · rw [if_pos hu]
        dsimp only
        decide
      · rw [if_neg hu]
        refine ⟨?_, hrun t0 ht0⟩
        intro hcontra
        exact hu (by rw [hcontra]; rfl)
    · rw [if_neg hr] at hfin ⊢
      rcases hw : runWave jp forced oracle st (readyIdxs st forced) with ⟨st1, exc⟩
      rw [hw] at hfin
      cases exc with
      | none =>
        exact ih st1
          (runWave_not_running jp forced oracle hpay (readyIdxs st forced) st st1 hw hrun)
          hfin
      | some e =>
        cases e <;> (dsimp only at hfin; exact absurd hfin (by decide))

/-- Witness for the amended claim C7 at a concrete finished run: the single
task ends "success", which is neither "unassigned" nor "running". -/
theorem c7_finished_run_witness :
    ({ script := "a.py", status := "success", parents := [],
       fields := [("status", "success")], hasStart := true, hasEnd := true } : TaskT).status
        ≠ "unassigned"
    ∧ ({ script := "a.py", status := "success", parents := [],
         fields := [("status", "success")], hasStart := true, hasEnd := true } : TaskT).status
        ≠ "running" :=
  c7_finished_run_no_unassigned_no_running jsonParse0 false (fun _ => okSuccessProc) 3
    [mkTask "a.py" []]
    (by decide)
    (fun _ => payloadLeavesRunning_of_eq jsonParse0 okSuccessProc [("status", "success")]
      rfl (by decide))
    rfl
    { script := "a.py", status := "success", parents := [],
      fields := [("status", "success")], hasStart := true, hasEnd := true }
    (by decide)

/-- Python `str` of a bool, as it appears inside the `run_args` string. -/
def pyBoolStr (b : Bool) : String :=
  if b then "True" else "False"

/-- Embedding of the `run_args` dict literal built in `Taskmaster.run`
(lines 71-76): the `"auto"` entry is assigned the `forced` variable (the
source reads `"auto": forced`), the `"forced"` entry likewise; the
`only_run`/`max_tasks` entries are carried as opaque reprs. The `auto`
argument of `run` is in scope but unused here, mirroring the source. -/
def run_args_dict (_auto forced : Bool) (onlyRunRepr maxTasksRepr : String) :
    List (String × String) :=
  [("auto", pyBoolStr forced), ("forced", pyBoolStr forced),
   ("only_run", onlyRunRepr), ("max_tasks", maxTasksRepr)]

/-- The flag assignments of `Taskmaster.run`: `self.auto = auto` and
`self.forced = forced`; scheduling (`is_ready`, `run_task`) receives
`forced`. -/
structure RunFlags where
  selfAuto : Bool
  selfForced : Bool
  deriving DecidableEq, Repr

/-- Embedding of the flag wiring of `Taskmaster.run`. -/
def run_flags (auto forced : Bool) : RunFlags :=
  { selfAuto := auto, selfForced := forced }

/-- Claim C9. The run log's `run_args` string records the "auto" key with
the value of the `forced` flag (so it misreports the auto setting whenever
`auto ≠ forced`), while the run's actual behaviour is unaffected:
`self.auto` receives `auto` and scheduling receives `forced`, and the
scheduler model does not consult `auto` at all. -/
theorem c9_run_args_auto_misreported :
    (∀ (auto forced : Bool) (o m : String),
      lookupField "auto" (run_args_dict auto forced o m) = some (pyBoolStr forced))
    ∧ (∀ (auto forced : Bool),
      (run_flags auto forced).selfAuto = auto ∧ (run_flags auto forced).selfForced = forced)
    ∧ (∀ (auto forced : Bool) (o m : String), auto ≠ forced →
      lookupField "auto" (run_args_dict auto forced o m) ≠ some (pyBoolStr auto)) := by
  refine ⟨?_, ?_, ?_⟩
  · intro auto forced o m
    cases forced <;> rfl
  · intro auto forced
    exact ⟨rfl, rfl⟩
  · intro auto forced o m hne hc
    have h1 : lookupField "auto" (run_args_dict auto forced o m) = some (pyBoolStr forced) := by
      cases forced <;> rfl
    rw [h1] at hc
    injection hc with h2
    cases auto <;> cases forced
    · exact hne rfl
    · exact absurd h2 (by decide)
    · exact absurd h2 (by decide)
    · exact hne rfl

/-- Witness for claim C9 at a concrete input: with `auto = true` and
`forced = false` the logged "auto" entry is "False", not "True". -/
theorem c9_run_args_auto_misreported_witness :
    lookupField "auto" (run_args_dict true false "None" "8") = some (pyBoolStr false)
    ∧ lookupField "auto" (run_args_dict true false "None" "8") ≠ some (pyBoolStr true) :=
  ⟨c9_run_args_auto_misreported.1 true false "None" "8",
   c9_run_args_auto_misreported.2.2 true false "None" "8" (by decide)⟩

/-- ASCII lower-casing of one character, tabulated (the effect of Python's
`str.lower` on the basic latin letters; other characters are unchanged). -/
def lowerChar (c : Char) : Char :=
  if c = 'A' then 'a' else if c = 'B' then 'b' else if c = 'C' then 'c'
  else if c = 'D' then 'd' else if c = 'E' then 'e' else if c = 'F' then 'f'
  else if c = 'G' then 'g' else if c = 'H' then 'h' else if c = 'I' then 'i'
  else if c = 'J' then 'j' else if c = 'K' then 'k' else if c = 'L' then 'l'
  else if c = 'M' then 'm' else if c = 'N' then 'n' else if c = 'O' then 'o'
  else if c = 'P' then 'p' else if c = 'Q' then 'q' else if c = 'R' then 'r'
  else if c = 'S' then 's' else if c = 'T' then 't' else if c = 'U' then 'u'
  else if c = 'V' then 'v' else if c = 'W' then 'w' else if c = 'X' then 'x'
  else if c = 'Y' then 'y' else if c = 'Z' then 'z' else c

/-- Step lemma for walking the if-chain of `lowerChar`: replacing one branch
whose test character and result character are both different from the dot
preserves the dot-equivalence. -/
theorem lower_if_step (c a b r : Char) (hb : b ≠ '.') (ha : a ≠ '.')
    (hr : r = '.' ↔ c = '.') :
    (if c = a then b else r) = '.' ↔ c = '.' := by
  by_cases h : c = a
  · rw [if_pos h]
    constructor
    · intro hb'
      exact absurd hb' hb
    · intro hc
      rw [hc] at h
      exact absurd h.symm ha
  · rw [if_neg h]
    exact hr

/-- Lower-casing never produces or destroys a dot. -/
theorem lowerChar_dot (c : Char) : lowerChar c = '.' ↔ c = '.' := by
  unfold lowerChar
  repeat
    first
    | exact Iff.rfl
    | refine lower_if_step _ _ _ _ (by decide) (by decide) ?_

/-- Characters of `script.lower()`. -/
def toLowerChars (s : String) : List Char :=
  s.data.map lowerChar

/-- Embedding of Python's `split(".")` over the character list: splits on
every dot, keeping empty segments. -/
def splitDots : List Char → List (List Char)
  | [] => [[]]
  | c :: cs =>
    if c = '.' then [] :: splitDots cs
    else
      match splitDots cs with
      | [] => [[c]]
      | h :: t => (c :: h) :: t

/-- The split result is never the empty list. -/
theorem splitDots_ne_nil (l : List Char) : splitDots l ≠ [] := by
  cases l with
  | nil => simp [splitDots]
  | cons c cs =>
    unfold splitDots
    by_cases h : c = '.'
    · rw [if_pos h]
      simp
    · rw [if_neg h]
      cases hs : splitDots cs <;> simp

/-- The number of split segments is one more than the number of dots. -/
theorem splitDots_length (l : List Char) :
    (splitDots l).length = l.count '.' + 1 := by
  induction l with
  | nil => simp [splitDots]
  | cons c cs ih =>
    unfold splitDots
    by_cases h : c = '.'
    · rw [if_pos h]
      simp [List.count_cons, h, ih]
    · rw [if_neg h]
      cases hs : splitDots cs with
      | nil => exact absurd hs (splitDots_ne_nil cs)
      | cons h0 t0 =>
        rw [hs] at ih
        simp only [List.length_cons] at ih ⊢
        rw [List.count_cons]
        simp [h, ih]

/-- Splitting a dot-free list yields the singleton. -/
theorem splitDots_no_dot (l : List Char) (h : '.' ∉ l) : splitDots l = [l] := by
  induction l with
  | nil => rfl
  | cons c cs ih =>
    have hc : c ≠ '.' := fun hcc => h (hcc ▸ List.mem_cons_self c cs)
    have hcs : '.' ∉ cs := fun hm => h (List.mem_cons_of_mem c hm)
    unfold splitDots
    rw [if_neg hc, ih hcs]

/-- Splitting past a leading dot-free segment peels it off. -/
theorem splitDots_append_dot (a b : List Char) (ha : '.' ∉ a) :
    splitDots (a ++ '.' :: b) = a :: splitDots b := by
  induction a with
  | nil =>
    simp only [List.nil_append]
    simp [splitDots]
  | cons c a1 ih =>
    have hc : c ≠ '.' := fun hcc => ha (hcc ▸ List.mem_cons_self c a1)
    have ha1 : '.' ∉ a1 := fun hm => ha (List.mem_cons_of_mem c hm)
    show splitDots (c :: (a1 ++ '.' :: b)) = (c :: a1) :: splitDots b
    simp only [splitDots]
    rw [if_neg hc, ih ha1]

/-- A singleton split means the input itself had no dot. -/
theorem splitDots_single_fwd :
    ∀ (l b : List Char), splitDots l = [b] → l = b ∧ '.' ∉ b := by
  intro l
  induction l with
  | nil =>
    intro b h
    unfold splitDots at h
    injection h with h1 h2
    subst h1
    exact ⟨rfl, by simp⟩
  | cons c cs ih =>
    intro b h
    unfold splitDots at h
    by_cases hc : c = '.'
    · rw [if_pos hc] at h
      injection h with h1 h2
      exact absurd h2 (splitDots_ne_nil cs)
    · rw [if_neg hc] at h
      rcases hs : splitDots cs with _ | ⟨h0, t0⟩
      · exact absurd hs (splitDots_ne_nil cs)
      · rw [hs] at h
        injection h with h1 h2
        subst h2
        rcases ih h0 hs with ⟨hcs, hh0⟩
        subst hcs
        constructor
        · exact h1
        · rw [← h1]
          intro hm
          rcases List.mem_cons.mp hm with h3 | h3
          · exact hc h3.symm
          · exact hh0 h3

/-- A two-element split characterises the input as head, one dot, tail. -/
theorem splitDots_pair_fwd :
    ∀ (l a b : List Char), splitDots l = [a, b] →
      l = a ++ '.' :: b ∧ '.' ∉ a ∧ '.' ∉ b := by
  intro l
  induction l with
  | nil =>
    intro a b h
    unfold splitDots at h
    injection h with h1 h2
    exact absurd h2.symm (List.cons_ne_nil b [])
  | cons c cs ih =>
    intro a b h
    unfold splitDots at h
    by_cases hc : c = '.'
    · rw [if_pos hc] at h
      injection h with h1 h2
      rcases splitDots_single_fwd cs b h2 with ⟨hcsb, hb⟩
      subst hc
      refine ⟨?_, ?_, hb⟩
      · rw [← h1, hcsb]
        rfl
      · rw [← h1]
        simp
    · rw [if_neg hc] at h
      rcases hs : splitDots cs with _ | ⟨h0, t0⟩
      · exact absurd hs (splitDots_ne_nil cs)
      · rw [hs] at h
        injection h with h1 h2
        have hcs2 : splitDots cs = [h0, b] := by rw [hs, h2]
        rcases ih h0 b hcs2 with ⟨hl, hh0, hb⟩
        refine ⟨?_, ?_, hb⟩
        · rw [← h1, hl]
          rfl
        · rw [← h1]
          intro hm
          rcases List.mem_cons.mp hm with h3 | h3
          · exact hc h3.symm
          · exact hh0 h3

/-- Full characterisation of a two-element split. -/
theorem splitDots_pair (l a b : List Char) :
    splitDots l = [a, b] ↔ (l = a ++ '.' :: b ∧ '.' ∉ a ∧ '.' ∉ b) := by
  constructor
  · exact splitDots_pair_fwd l a b
  · rintro ⟨rfl, ha, hb⟩
    rw [splitDots_append_dot a b ha, splitDots_no_dot b hb]

/-- Lower-casing preserves the number of dots. -/
theorem count_dot_map_lowerChar (l : List Char) :
    (l.map lowerChar).count '.' = l.count '.' := by
  induction l with
  | nil => rfl
  | cons c cs ih =>
    simp only [List.map_cons, List.count_cons, ih]
    by_cases hc : c = '.'
    · subst hc
      rfl
    · have hlc : lowerChar c ≠ '.' := fun h => hc ((lowerChar_dot c).mp h)
      simp [hc, hlc]

/-- Outcomes of `Taskmaster.prep_base_args`: the `ValueError` raised by the
tuple unpacking `name, ext = ... .split(".")` when the split does not have
exactly two parts, and the explicit `Exception` ("I don't know how to run
files with '.ext' extensions!") for an unknown extension. -/
inductive PrepErr where
  | valueErrorUnpack
  | configError (ext : String)
  deriving DecidableEq, Repr

/-- Embedding of `Taskmaster.prep_base_args`: lower-case the script name,
split on dots, unpack into `name, ext` (two parts or `ValueError`), then pick
the launcher by extension; `script_fn` (`scripts_path.joinpath(script)`) is
modelled as path concatenation. -/
def prep_base_args (scriptsPath : String) (script : String) :
    Except PrepErr (List String) :=
  match splitDots (toLowerChars script) with
  | [_name, ext] =>
    if String.mk ext = "py" then
      Except.ok ["pipenv", "run", "python", scriptsPath ++ "/" ++ script]
    else if String.mk ext = "r" then
      Except.ok ["Rscript", scriptsPath ++ "/" ++ script]
    else
      Except.error (PrepErr.configError (String.mk ext))
  | _ => Except.error PrepErr.valueErrorUnpack

/-- Claim C10. Preparing launch arguments for a script identifier without
exactly one dot fails with the unpacking `ValueError` (never reaching the
configuration error for unknown extensions); a script with exactly one dot
never produces the unpacking error; and the call succeeds exactly for
identifiers whose lower-casing is `name + "." + "py"` or `name + "." + "r"`
with a dot-free name. -/
theorem c10_prep_base_args_split (scriptsPath script : String) :
    (script.data.count '.' ≠ 1 →
      prep_base_args scriptsPath script = Except.error PrepErr.valueErrorUnpack)
    ∧ (script.data.count '.' = 1 →
      prep_base_args scriptsPath script ≠ Except.error PrepErr.valueErrorUnpack)
    ∧ ((∃ args, prep_base_args scriptsPath script = Except.ok args) ↔
      (∃ nm, ('.' ∉ nm) ∧
        (toLowerChars script = nm ++ '.' :: "py".data
          ∨ toLowerChars script = nm ++ '.' :: "r".data))) := by
  have hcount : (toLowerChars script).count '.' = script.data.count '.' :=
    count_dot_map_lowerChar script.data
  refine ⟨?_, ?_, ?_⟩
  · intro h
    unfold prep_base_args
    rcases hs : splitDots (toLowerChars script) with _ | ⟨x, _ | ⟨y, _ | ⟨z, zs⟩⟩⟩
    · rfl
    · rfl
    · exfalso
      have hlen := splitDots_length (toLowerChars script)
      rw [hs, hcount] at hlen
      simp only [List.length_cons, List.length_nil] at hlen
      omega
    · rfl
  · intro h1 hcontra
    unfold prep_base_args at hcontra
    rcases hs : splitDots (toLowerChars script) with _ | ⟨x, _ | ⟨y, _ | ⟨z, zs⟩⟩⟩
    · exact absurd hs (splitDots_ne_nil _)
    · have hlen := splitDots_length (toLowerChars script)
      rw [hs, hcount] at hlen
      simp only [List.length_cons, List.length_nil] at hlen
      omega
    · rw [hs] at hcontra
      dsimp only at hcontra
      by_cases hpy : String.mk y = "py"
      · rw [if_pos hpy] at hcontra
        simp at hcontra
      · rw [if_neg hpy] at hcontra
        by_cases hrr : String.mk y = "r"
        · rw [if_pos hrr] at hcontra
          simp at hcontra
        · rw [if_neg hrr] at hcontra
          simp at hcontra
    · have hlen := splitDots_length (toLowerChars script)
      rw [hs, hcount] at hlen
      simp only [List.length_cons] at hlen
      omega
  · constructor
    · rintro ⟨args, hargs⟩
      unfold prep_base_args at hargs
      rcases hs : splitDots (toLowerChars script) with _ | ⟨x, _ | ⟨y, _ | ⟨z, zs⟩⟩⟩ <;>
        rw [hs] at hargs
      · simp at hargs
      · simp at hargs
      · rcases splitDots_pair_fwd _ x y hs with ⟨hl, hx, hy⟩
        dsimp only at hargs
        by_cases hpy : String.mk y = "py"
        · have hy2 : y = "py".data := congrArg String.data hpy
          exact ⟨x, hx, Or.inl (by rw [hl, hy2])⟩
        · by_cases hrr : String.mk y = "r"
          · have hy2 : y = "r".data := congrArg String.data hrr
            exact ⟨x, hx, Or.inr (by rw [hl, hy2])⟩
          · rw [if_neg hpy, if_neg hrr] at hargs
            simp at hargs
      · simp at hargs
    · rintro ⟨nm, hnm, hcase | hcase⟩
      · have hsplit : splitDots (toLowerChars script) = [nm, "py".data] :=
          (splitDots_pair _ nm _).mpr ⟨hcase, hnm, by decide⟩
        refine ⟨["pipenv", "run", "python", scriptsPath ++ "/" ++ script], ?_⟩
        unfold prep_base_args
        rw [hsplit]
        dsimp only
        rw [if_pos (by decide)]
      · have hsplit : splitDots (toLowerChars script) = [nm, "r".data] :=
          (splitDots_pair _ nm _).mpr ⟨hcase, hnm, by decide⟩
        refine ⟨["Rscript", scriptsPath ++ "/" ++ script], ?_⟩
        unfold prep_base_args
        rw [hsplit]
        dsimp only
        rw [if_neg (by decide), if_pos (by decide)]

/-- Witness for claim C10 at concrete inputs: two dots ("name.v2.py") and no
dot ("name") both fail with the unpacking `ValueError`, while "Scrape.PY"
(one dot, extension "py" after lower-casing) is launchable. -/
theorem c10_prep_base_args_split_witness :
    prep_base_args "modules" "name.v2.py" = Except.error PrepErr.valueErrorUnpack
    ∧ prep_base_args "modules" "name" = Except.error PrepErr.valueErrorUnpack
    ∧ (∃ args, prep_base_args "modules" "Scrape.PY" = Except.ok args) :=
  ⟨(c10_prep_base_args_split "modules" "name.v2.py").1 (by decide),
   (c10_prep_base_args_split "modules" "name").1 (by decide),
   (c10_prep_base_args_split "modules" "Scrape.PY").2.2.mpr
     ⟨"scrape".data, by decide, Or.inl (by decide)⟩⟩

namespace Sched

/-!
Relational scheduler model for the reachable-state invariant of claim C5.
States map task indices to status strings; the static graph keeps each
task's parent and child index lists (as built by `list_tasks`). The step
relation has one constructor per status mutation in the source:
`start` (the ready check of `is_ready` followed by `run_task` setting
"running"), `complete` (the payload merge, whose `"status"` field — an
arbitrary string, or absent — is the only way the status changes),
`fail`/`terminate` (the failure and cancellation paths of `run_task`),
`shortcircuit` (the dead `else` branch of `is_ready`, guarded by
`is_changed` returning `False`, which it never does — the guard is kept so
the model mirrors the source), and `sweep` (the skip sweep of the run
loop). -/

/-- Static node of the task graph: parent and child indices. -/
structure RTask where
  parents : List Nat
  children : List Nat
  deriving DecidableEq, Repr

/-- Parent indices of task `i` (empty for out-of-range `i`). -/
def parentsOf (g : List RTask) (i : Nat) : List Nat :=
  ((g.get? i).map fun t => t.parents).getD []

/-- Child indices of task `i` (empty for out-of-range `i`). -/
def childrenOf (g : List RTask) (i : Nat) : List Nat :=
  ((g.get? i).map fun t => t.children).getD []

/-- Status assignment of the scheduler state. -/
def StMap : Type := Nat → String

/-- Pointwise status update (one `t["status"] = ...` assignment). -/
def setSt (st : StMap) (i : Nat) (v : String) : StMap :=
  fun j => if j = i then v else st j

/-- Initial state: every task starts "unassigned" (`make_task`). -/
def initSt : StMap :=
  fun _ => "unassigned"

/-- Constant mirrored from `Taskmaster.is_changed`, whose body always
returns `True`. -/
def is_changed_const : Bool :=
  true

/-- Transitive closure of the child edges (`get_descendents`). -/
inductive Desc (g : List RTask) : Nat → Nat → Prop where
  | child (i j : Nat) : j ∈ childrenOf g i → Desc g i j
  | trans (i k j : Nat) : Desc g i k → Desc g k j → Desc g i j

/-- Transitive closure of the parent edges (`get_ancestors`). -/
inductive Ances (g : List RTask) : Nat → Nat → Prop where
  | parent (j i : Nat) : j ∈ parentsOf g i → Ances g j i
  | trans (j k i : Nat) : Ances g j k → Ances g k i → Ances g j i

/-- Task `i` would be admitted by `is_ready`: unassigned, all parents
"success", and `forced or is_changed(t)`. -/
def ReadyP (g : List RTask) (forced : Bool) (st : StMap) (i : Nat) : Prop :=
  i < g.length ∧ st i = "unassigned"
    ∧ (∀ j ∈ parentsOf g i, st j = "success")
    ∧ (forced = true ∨ is_changed_const = true)

/-- One scheduler-visible status mutation of the source. -/
inductive Step (g : List RTask) (forced : Bool) : StMap → StMap → Prop where
  | start (st : StMap) (i : Nat) :
      i < g.length →
      st i = "unassigned" →
      (∀ j ∈ parentsOf g i, st j = "success") →
      (forced = true ∨ is_changed_const = true) →
      Step g forced st (setSt st i "running")
  | complete (st : StMap) (i : Nat) (payloadStatus : Option String) :
      st i = "running" →
      Step g forced st (setSt st i (payloadStatus.getD "running"))
  | fail (st : StMap) (i : Nat) :
      st i = "running" →
      Step g forced st (setSt st i "failed")
  | terminate (st : StMap) (i : Nat) :
      st i = "running" →
      Step g forced st (setSt st i "terminated")
  | shortcircuit (st st1 : StMap) (i : Nat) :
      i < g.length →
      st i = "unassigned" →
      (∀ j ∈ parentsOf g i, st j = "success") →
      forced = false →
      is_changed_const = false →
      (∀ j, (j = i ∨ Desc g i j) → st1 j = "unchanged") →
      (∀ j, ¬(j = i ∨ Desc g i j) → st1 j = st j) →
      Step g forced st st1
  | sweep (st : StMap) :
      (∀ i, ¬ ReadyP g forced st i) →
      Step g forced st
        (fun j => if j < g.length ∧ st j = "unassigned" then "skipped" else st j)

/-- States reachable from the all-unassigned initial state. -/
inductive Reachable (g : List RTask) (forced : Bool) : StMap → Prop where
  | init : Reachable g forced initSt
  | step (st st1 : StMap) :
      Reachable g forced st → Step g forced st st1 → Reachable g forced st1

/-- Statuses a task can only hold after having been admitted (or merged):
the intermediate "running" and everything downstream of it. -/
def Tracked (s : String) : Prop :=
  s = "running" ∨ s = "success" ∨ s = "failed" ∨ s = "terminated" ∨ s = "unchanged"

/-- Statuses a parent of an admitted task can hold. -/
def OkParent (s : String) : Prop :=
  s = "success" ∨ s = "unchanged"

/-- The inductive invariant: every task in a tracked status has all its
parents in "success" or "unchanged". -/
def Inv (g : List RTask) (st : StMap) : Prop :=
  ∀ i, Tracked (st i) → ∀ j ∈ parentsOf g i, OkParent (st j)

theorem inv_init (g : List RTask) : Inv g initSt := by
  intro i h
  simp [initSt, Tracked] at h

/-- Status lookups after a pointwise update. -/
theorem setSt_ne (st : StMap) (i : Nat) (v : String) (j : Nat) (h : j ≠ i) :
    setSt st i v j = st j :=
  if_neg h

/-- Updating a "running" task (the merge/fail/terminate mutations) preserves
the invariant. -/
theorem inv_set_of_running (g : List RTask) (st : StMap) (i : Nat) (v : String)
    (hrun : st i = "running") (hinv : Inv g st) : Inv g (setSt st i v) := by
  intro k hk j hj
  by_cases hji : j = i
  · exfalso
    by_cases hki : k = i
    · subst hki
      have hok := hinv k (Or.inl hrun) j hj
      rw [hji, hrun] at hok
      rcases hok with h | h <;> exact absurd h (by decide)
    · rw [setSt_ne st i v k hki] at hk
      have hok := hinv k hk j hj
      rw [hji, hrun] at hok
      rcases hok with h | h <;> exact absurd h (by decide)
  · rw [setSt_ne st i v j hji]
    by_cases hki : k = i
    · subst hki
      exact hinv k (Or.inl hrun) j hj
    · rw [setSt_ne st i v k hki] at hk
      exact hinv k hk j hj

/-- Admitting a ready task (all parents "success") preserves the
invariant. -/
theorem inv_set_start (g : List RTask) (st : StMap) (i : Nat)
    (hun : st i = "unassigned")
    (hpar : ∀ j ∈ parentsOf g i, st j = "success") (hinv : Inv g st) :
    Inv g (setSt st i "running") := by
  intro k hk j hj
  by_cases hji : j = i
  · exfalso
    by_cases hki : k = i
    · subst hki
      have hsj := hpar j hj
      rw [hji, hun] at hsj
      exact absurd hsj (by decide)
    · rw [setSt_ne st i _ k hki] at hk
      have hok := hinv k hk j hj
      rw [hji, hun] at hok
      rcases hok with h | h <;> exact absurd h (by decide)
  · rw [setSt_ne st i _ j hji]
    by_cases hki : k = i
    · subst hki
      exact Or.inl (hpar j hj)
    · rw [setSt_ne st i _ k hki] at hk
      exact hinv k hk j hj

theorem inv_step (g : List RTask) (forced : Bool) (st st1 : StMap)
    (hstep : Step g forced st st1) (hinv : Inv g st) : Inv g st1 := by
  cases hstep with
  | start i hlt hun hpar hch =>
    exact inv_set_start g st i hun hpar hinv
  | complete i ps hrun =>
    exact inv_set_of_running g st i _ hrun hinv
  | fail i hrun =>
    exact inv_set_of_running g st i _ hrun hinv
  | terminate i hrun =>
    exact inv_set_of_running g st i _ hrun hinv
  | shortcircuit st2 i hlt hun hpar hf hch hin hout =>
    exact absurd hch (by simp [is_changed_const])
  | sweep hnr =>
    intro k hk j hj
    dsimp only at hk ⊢
    by_cases hc : k < g.length ∧ st k = "unassigned"
    · rw [if_pos hc] at hk
      rcases hk with h | h | h | h | h <;> exact absurd h (by decide)
    · rw [if_neg hc] at hk
      have hok := hinv k hk j hj
      have hcj : ¬(j < g.length ∧ st j = "unassigned") := by
        rintro ⟨_h1, hj2⟩
        rw [hj2] at hok
        rcases hok with h | h <;> exact absurd h (by decide)
      rw [if_neg hcj]
      exact hok

/-- The invariant holds in every reachable state. -/
theorem inv_reachable (g : List RTask) (forced : Bool) (st : StMap)
    (h : Reachable g forced st) : Inv g st := by
  induction h with
  | init => exact inv_init g
  | step st st1 _hr hstep ih => exact inv_step g forced st st1 hstep ih

/-- Walking up ancestor chains preserves `OkParent` under the invariant. -/
theorem okparent_ances (g : List RTask) (st : StMap) (hinv : Inv g st) :
    ∀ j i, Ances g j i → OkParent (st i) → OkParent (st j) := by
  intro j i h
  induction h with
  | parent j i hj =>
    intro hok
    have htr : Tracked (st i) := by
      rcases hok with h | h
      · exact Or.inr (Or.inl h)
      · exact Or.inr (Or.inr (Or.inr (Or.inr h)))
    exact hinv i htr j hj
  | trans j k i _h1 _h2 ih1 ih2 =>
    intro hok
    exact ih1 (ih2 hok)

end Sched

/-- Claim C5. First conjunct: in every step of the scheduler model, a task
that transitions from "unassigned" to "running" had every parent in status
"success" at that moment (the gate of `is_ready`). Second conjunct: in every
reachable state, a task with status "success" has every ancestor in
"success" or "unchanged". -/
theorem c5_parent_gate_and_ancestors (g : List Sched.RTask) (forced : Bool) :
    (∀ st st1, Sched.Step g forced st st1 →
      ∀ i, st i = "unassigned" → st1 i = "running" →
        ∀ j ∈ Sched.parentsOf g i, st j = "success")
    ∧ (∀ st, Sched.Reachable g forced st →
      ∀ i, st i = "success" →
        ∀ j, Sched.Ances g j i → st j = "success" ∨ st j = "unchanged") := by
  constructor
  · intro st st1 hstep i hun hrun
    cases hstep with
    | start i0 hlt hun0 hpar hch =>
      by_cases hii : i = i0
      · subst hii
        exact hpar
      · rw [Sched.setSt_ne st i0 _ i hii, hun] at hrun
        exact absurd hrun (by decide)
    | complete i0 ps hrun0 =>
      by_cases hii : i = i0
      · subst hii
        rw [hun] at hrun0
        exact absurd hrun0 (by decide)
      · rw [Sched.setSt_ne st i0 _ i hii, hun] at hrun
        exact absurd hrun (by decide)
    | fail i0 hrun0 =>
      by_cases hii : i = i0
      · subst hii
        rw [hun] at hrun0
        exact absurd hrun0 (by decide)
      · rw [Sched.setSt_ne st i0 _ i hii, hun] at hrun
        exact absurd hrun (by decide)
    | terminate i0 hrun0 =>
      by_cases hii : i = i0
      · subst hii
        rw [hun] at hrun0
        exact absurd hrun0 (by decide)
      · rw [Sched.setSt_ne st i0 _ i hii, hun] at hrun
        exact absurd hrun (by decide)
    | shortcircuit st2 i0 hlt hun0 hpar hf hch hin hout =>
      exact absurd hch (by simp [Sched.is_changed_const])
    | sweep hnr =>
      dsimp only at hrun
      by_cases hc : i < g.length ∧ st i = "unassigned"
      · rw [if_pos hc] at hrun
        exact absurd hrun (by decide)
      · rw [if_neg hc, hun] at hrun
        exact absurd hrun (by decide)
  · intro st hreach i hi j hj
    have hinv := Sched.inv_reachable g forced st hreach
    exact Sched.okparent_ances g st hinv j i hj (Or.inl hi)

/-- Two-task chain (a → b) used as the concrete witness graph for claim
C5. -/
def gW : List Sched.RTask :=
  [{ parents := [], children := [1] }, { parents := [0], children := [] }]

/-- Witness trace for claim C5: task 0 starts. -/
def sW1 : Sched.StMap := Sched.setSt Sched.initSt 0 "running"

/-- Witness trace for claim C5: task 0 completes with payload status
"success". -/
def sW2 : Sched.StMap := Sched.setSt sW1 0 "success"

/-- Witness trace for claim C5: task 1 starts after its parent succeeded. -/
def sW3 : Sched.StMap := Sched.setSt sW2 1 "running"

/-- Witness trace for claim C5: task 1 completes with payload status
"success". -/
def sW4 : Sched.StMap := Sched.setSt sW3 1 "success"

/-- The witness end state is reachable. -/
theorem sW4_reachable : Sched.Reachable gW false sW4 := by
  have h1 : Sched.Step gW false Sched.initSt sW1 := by
    refine Sched.Step.start Sched.initSt 0 (by decide) rfl ?_ (Or.inr rfl)
    intro j hj
    rw [show Sched.parentsOf gW 0 = [] from rfl] at hj
    exact absurd hj (List.not_mem_nil j)
  have h2 : Sched.Step gW false sW1 sW2 :=
    Sched.Step.complete sW1 0 (some "success") rfl
  have h3 : Sched.Step gW false sW2 sW3 := by
    refine Sched.Step.start sW2 1 (by decide) rfl ?_ (Or.inr rfl)
    intro j hj
    rw [show Sched.parentsOf gW 1 = [0] from rfl] at hj
    rw [List.mem_singleton.mp hj]
    rfl
  have h4 : Sched.Step gW false sW3 sW4 :=
    Sched.Step.complete sW3 1 (some "success") rfl
  exact Sched.Reachable.step sW3 sW4
    (Sched.Reachable.step sW2 sW3
      (Sched.Reachable.step sW1 sW2
        (Sched.Reachable.step Sched.initSt sW1 Sched.Reachable.init h1) h2) h3) h4

/-- Witness for claim C5 at the concrete reachable state `sW4`: task 1 is
"success" and its ancestor, task 0, is "success" or "unchanged". -/
theorem c5_parent_gate_and_ancestors_witness :
    sW4 1 = "success" ∧ (sW4 0 = "success" ∨ sW4 0 = "unchanged") :=
  ⟨rfl, (c5_parent_gate_and_ancestors gW false).2 sW4 sW4_reachable 1 rfl 0
    (Sched.Ances.parent 0 1 (by decide))⟩

namespace Gather

/-!
Model of `gather_with_concurrency` for claim C6. The function wraps every
task coroutine as `sem_task` (`async with semaphore: return await task`)
over `asyncio.Semaphore(max_tasks)` and gathers them. A coroutine is
`waiting` until it acquires the semaphore, `holding b` while inside the
`async with` block (with `b` true exactly while its child process exists:
`run_task` spawns the subprocess after entry and awaits its exit before
returning), and `done` after the release on exit. The run loop awaits each
wave's gather (`asyncio.run`) before computing the next wave, so only one
gather is ever active and the per-gather bound is the run-wide bound. -/

/-- Phase of one wrapped coroutine. -/
inductive Phase where
  | waiting
  | holding (alive : Bool)
  | done
  deriving DecidableEq, Repr

/-- Semaphore counter plus the phases of the gathered coroutines. -/
structure GState where
  counter : Nat
  phases : List Phase
  deriving DecidableEq, Repr

/-- Start of a gather over `k` coroutines: full counter, everyone waiting. -/
def initG (maxTasks k : Nat) : GState :=
  { counter := maxTasks, phases := List.replicate k Phase.waiting }

/-- Number of simultaneously-running child processes. -/
def numAlive (s : GState) : Nat :=
  s.phases.countP fun p => p == Phase.holding true

/-- Number of coroutines currently inside the `async with` block. -/
def numHolding (s : GState) : Nat :=
  s.phases.countP fun p => p == Phase.holding true || p == Phase.holding false

/-- Interleaved execution of the gathered `sem_task` coroutines. -/
inductive GStep : GState → GState → Prop where
  | acquire (s : GState) (i : Nat) :
      s.phases.get? i = some Phase.waiting →
      0 < s.counter →
      GStep s { counter := s.counter - 1, phases := s.phases.set i (Phase.holding false) }
  | spawn (s : GState) (i : Nat) :
      s.phases.get? i = some (Phase.holding false) →
      GStep s { s with phases := s.phases.set i (Phase.holding true) }
  | exitProc (s : GState) (i : Nat) :
      s.phases.get? i = some (Phase.holding true) →
      GStep s { s with phases := s.phases.set i (Phase.holding false) }
  | release (s : GState) (i : Nat) :
      s.phases.get? i = some (Phase.holding false) →
      GStep s { counter := s.counter + 1, phases := s.phases.set i Phase.done }

/-- States reachable during one gather call. -/
inductive GReach (maxTasks k : Nat) : GState → Prop where
  | init : GReach maxTasks k (initG maxTasks k)
  | step (s s1 : GState) :
      GReach maxTasks k s → GStep s s1 → GReach maxTasks k s1

/-- Counting after a pointwise list update. -/
theorem countP_set_eq {α : Type} (p : α → Bool) :
    ∀ (l : List α) (i : Nat) (v old : α), l.get? i = some old →
      (l.set i v).countP p + (if p old then 1 else 0)
        = l.countP p + (if p v then 1 else 0) := by
  intro l
  induction l with
  | nil =>
    intro i v old h
    simp at h
  | cons a l ih =>
    intro i v old h
    cases i with
    | zero =>
      simp only [List.get?] at h
      injection h with h
      subst h
      simp only [List.set, List.countP_cons]
      omega
    | succ n =>
      simp only [List.get?] at h
      have hrec := ih n v old h
      simp only [List.set, List.countP_cons]
      omega

/-- Semaphore invariant: held permits plus free permits equal the
configured maximum. -/
def GInv (maxTasks : Nat) (s : GState) : Prop :=
  s.counter + numHolding s = maxTasks

theorem ginv_init (maxTasks k : Nat) : GInv maxTasks (initG maxTasks k) := by
  have h0 : numHolding (initG maxTasks k) = 0 := by
    simp only [numHolding, initG]
    rw [List.countP_eq_zero]
    intro a ha
    rw [List.eq_of_mem_replicate ha]
    decide
  simp only [GInv]
  rw [h0]
  simp [initG]

theorem ginv_step (maxTasks : Nat) (s s1 : GState)
    (hs : GStep s s1) (hi : GInv maxTasks s) : GInv maxTasks s1 := by
  cases hs with
  | acquire i hget hpos =>
    have hc := countP_set_eq
      (fun p => p == Phase.holding true || p == Phase.holding false)
      s.phases i (Phase.holding false) Phase.waiting hget
    simp only [GInv, numHolding] at hi ⊢
    simp at hc
    omega
  | spawn i hget =>
    have hc := countP_set_eq
      (fun p => p == Phase.holding true || p == Phase.holding false)
      s.phases i (Phase.holding true) (Phase.holding false) hget
    simp only [GInv, numHolding] at hi ⊢
    simp at hc
    omega
  | exitProc i hget =>
    have hc := countP_set_eq
      (fun p => p == Phase.holding true || p == Phase.holding false)
      s.phases i (Phase.holding false) (Phase.holding true) hget
    simp only [GInv, numHolding] at hi ⊢
    simp at hc
    omega
  | release i hget =>
    have hc := countP_set_eq
      (fun p => p == Phase.holding true || p == Phase.holding false)
      s.phases i Phase.done (Phase.holding false) hget
    simp only [GInv, numHolding] at hi ⊢
    simp at hc
    omega

theorem ginv_reach (maxTasks k : Nat) (s : GState)
    (h : GReach maxTasks k s) : GInv maxTasks s := by
  induction h with
  | init => exact ginv_init maxTasks k
  | step s s1 _hr hstep ih => exact ginv_step maxTasks s s1 hstep ih

/-- Running child processes are a subset of the semaphore holders. -/
theorem numAlive_le_numHolding (s : GState) : numAlive s ≤ numHolding s := by
  apply List.countP_mono_left
  intro a _ha h
  rw [h]
  rfl

end Gather

/-- Claim C6. In every state reachable during a `gather_with_concurrency`
call with maximum `maxTasks`, the number of simultaneously-running child
processes is at most `maxTasks`: processes live only inside the semaphore's
`async with` block, and held plus free permits always sum to `maxTasks`.
Waves are gathered one at a time by the run loop, so this bounds the whole
run. -/
theorem c6_semaphore_caps_processes (maxTasks k : Nat) (s : Gather.GState)
    (h : Gather.GReach maxTasks k s) :
    Gather.numAlive s ≤ maxTasks := by
  have hinv := Gather.ginv_reach maxTasks k s h
  have hmono := Gather.numAlive_le_numHolding s
  simp only [Gather.GInv] at hinv
  omega

/-- Witness for claim C6: with `maxTasks = 1` and two queued coroutines,
after one acquire and one spawn exactly one child is alive, within the
bound. -/
theorem c6_semaphore_caps_processes_witness :
    Gather.numAlive
      { counter := 0,
        phases := [Gather.Phase.holding true, Gather.Phase.waiting] } ≤ 1 :=
  c6_semaphore_caps_processes 1 2
    { counter := 0, phases := [Gather.Phase.holding true, Gather.Phase.waiting] }
    (Gather.GReach.step _ _
      (Gather.GReach.step _ _ Gather.GReach.init
        (Gather.GStep.acquire (Gather.initG 1 2) 0 rfl (by decide)))
      (Gather.GStep.spawn
        { counter := 0, phases := [Gather.Phase.holding false, Gather.Phase.waiting] }
        0 rfl))

/-!
Task graph builder model for claim C8, embedding `Taskmaster.list_tasks`
(without the `only_run` filter) and `get_uniq`. Tasks are keyed by script
identifier (`tasks` is a Python dict keyed by `script`, and two task dicts
compare equal exactly when they are the same task, since distinct tasks
have distinct `"script"` values), so parent/child references are kept as
script identifiers. The script-existence check of `make_task` is assumed to
pass (it raises before any graph is built otherwise). -/

/-- A step of a job spec: one script or a group (the source normalises a
non-list step via `if type(step) is not list: step = [step]`). -/
inductive StepSpec where
  | single (s : String)
  | group (ss : List String)
  deriving DecidableEq, Repr

/-- The scripts of a step after normalisation. -/
def stepScripts : StepSpec → List String
  | .single s => [s]
  | .group ss => ss

/-- One job: name and ordered steps. -/
structure JobSpec where
  name : String
  steps : List StepSpec
  deriving DecidableEq, Repr

/-- Builder node: script, status, and parent/child edge lists (as script
identifiers). -/
structure TaskNode where
  script : String
  status : String
  parents : List String
  children : List String
  deriving DecidableEq, Repr

/-- Node built by `make_task`. -/
def makeNode (script : String) : TaskNode :=
  { script := script, status := "unassigned", parents := [], children := [] }

/-- Embedding of `get_uniq`: keep the first occurrence of each element. -/
def get_uniq (items : List String) : List String :=
  items.foldl (fun out i => if i ∈ out then out else out ++ [i]) []

/-- The keys of the builder's task map, in insertion order. -/
def keysOf (ts : List TaskNode) : List String :=
  ts.map fun t => t.script

/-- Embedding of `task = tasks.get(script) or self.make_task(job, script);
tasks[script] = task`: a no-op for a known script, an append otherwise. -/
def insertNew (ts : List TaskNode) (s : String) : List TaskNode :=
  if ts.any fun t => t.script == s then ts else ts ++ [makeNode s]

/-- In-place mutation of the task stored under script `s`. -/
def updNode (ts : List TaskNode) (s : String) (f : TaskNode → TaskNode) :
    List TaskNode :=
  ts.map fun t => if t.script == s then f t else t

/-- Embedding of one iteration of the step loop in `list_tasks`: create or
look up every script of the step, then link dependencies
(`t["parents"] = get_uniq(t["parents"] + prev)` for the current tasks and
`t["children"] = get_uniq(t["children"] + curr)` for the previous step's
tasks). Returns the updated map and this step's task list (`curr`). -/
def processStep (tp : List TaskNode × List String) (step : StepSpec) :
    List TaskNode × List String :=
  let prev := tp.2
  let scripts := stepScripts step
  let ts1 := scripts.foldl insertNew tp.1
  let ts2 := scripts.foldl
    (fun ts s => updNode ts s fun t => { t with parents := get_uniq (t.parents ++ prev) })
    ts1
  let ts3 := prev.foldl
    (fun ts s => updNode ts s fun t => { t with children := get_uniq (t.children ++ scripts) })
    ts2
  (ts3, scripts)

/-- Embedding of the per-job loop of `list_tasks` (`curr = []` at job
start). -/
def processJob (ts : List TaskNode) (job : JobSpec) : List TaskNode :=
  (job.steps.foldl processStep (ts, [])).1

/-- Embedding of `Taskmaster.list_tasks` over all jobs (no `only_run`
filter). -/
def list_tasks (jobs : List JobSpec) : List TaskNode :=
  jobs.foldl processJob []

/-- The accumulator of `get_uniq` stays duplicate-free. -/
theorem get_uniq_aux (l : List String) :
    ∀ out : List String, out.Nodup →
      (l.foldl (fun o i => if i ∈ o then o else o ++ [i]) out).Nodup := by
  induction l with
  | nil =>
    intro out h
    exact h
  | cons a l ih =>
    intro out h
    simp only [List.foldl_cons]
    by_cases hm : a ∈ out
    · rw [if_pos hm]
      exact ih out h
    · rw [if_neg hm]
      refine ih _ ?_
      simp [List.nodup_append, h, hm]

/-- `get_uniq` returns a duplicate-free list. -/
theorem get_uniq_nodup (l : List String) : (get_uniq l).Nodup :=
  get_uniq_aux l [] (by simp)

/-- Well-formedness of the builder state: script keys are pairwise distinct
and every node's parent/child lists are duplicate-free. -/
def NodesOk (ts : List TaskNode) : Prop :=
  (keysOf ts).Nodup ∧ ∀ t ∈ ts, t.parents.Nodup ∧ t.children.Nodup

/-- `updNode` keeps the key sequence when the mutation keeps the script. -/
theorem keysOf_updNode (ts : List TaskNode) (s : String) (f : TaskNode → TaskNode)
    (hf : ∀ t, (f t).script = t.script) :
    keysOf (updNode ts s f) = keysOf ts := by
  simp only [keysOf, updNode, List.map_map]
  apply List.map_congr_left
  intro t _ht
  by_cases hc : t.script == s
  · simp only [Function.comp_apply, if_pos hc]
    exact hf t
  · simp only [Function.comp_apply, if_neg hc]

/-- `updNode` preserves well-formedness when the mutation keeps the script
and keeps the edge lists duplicate-free. -/
theorem nodesOk_updNode (ts : List TaskNode) (s : String) (f : TaskNode → TaskNode)
    (hf : ∀ t, (f t).script = t.script)
    (hok : ∀ t, t.parents.Nodup ∧ t.children.Nodup →
      (f t).parents.Nodup ∧ (f t).children.Nodup)
    (h : NodesOk ts) : NodesOk (updNode ts s f) := by
  refine ⟨by rw [keysOf_updNode ts s f hf]; exact h.1, ?_⟩
  intro t ht
  rcases List.mem_map.mp ht with ⟨t0, ht0, heq⟩
  by_cases hc : t0.script == s
  · rw [if_pos hc] at heq
    rw [← heq]
    exact hok t0 (h.2 t0 ht0)
  · rw [if_neg hc] at heq
    rw [← heq]
    exact h.2 t0 ht0

/-- A failed `any` lookup means the script is absent from the keys. -/
theorem not_mem_keys_of_not_any (ts : List TaskNode) (s : String)
    (h : ¬(ts.any fun t => t.script == s) = true) : s ∉ keysOf ts := by
  intro hmem
  rcases List.mem_map.mp hmem with ⟨t0, ht0, heq⟩
  exact h (List.any_eq_true.mpr ⟨t0, ht0, by rw [heq, beq_self_eq_true]⟩)

/-- `insertNew` preserves well-formedness. -/
theorem nodesOk_insertNew (ts : List TaskNode) (s : String)
    (h : NodesOk ts) : NodesOk (insertNew ts s) := by
  unfold insertNew
  by_cases hc : (ts.any fun t => t.script == s) = true
  · rw [if_pos hc]
    exact h
  · rw [if_neg hc]
    constructor
    · have hkeys : keysOf (ts ++ [makeNode s]) = keysOf ts ++ [s] := by
        simp [keysOf, makeNode]
      rw [hkeys]
      simp [List.nodup_append, h.1, not_mem_keys_of_not_any ts s hc]
    · intro t ht
      rcases List.mem_append.mp ht with hm | hm
      · exact h.2 t hm
      · rw [List.mem_singleton.mp hm]
        exact ⟨List.nodup_nil, List.nodup_nil⟩

/-- Key membership after `insertNew`. -/
theorem mem_keys_insertNew (ts : List TaskNode) (s x : String) :
    x ∈ keysOf (insertNew ts s) ↔ x ∈ keysOf ts ∨ x = s := by
  unfold insertNew
  by_cases hc : (ts.any fun t => t.script == s) = true
  · rw [if_pos hc]
    constructor
    · exact Or.inl
    · rintro (hm | rfl)
      · exact hm
      · rcases List.any_eq_true.mp hc with ⟨t0, ht0, heq⟩
        exact List.mem_map.mpr ⟨t0, ht0, by rw [eq_of_beq heq]⟩
  · rw [if_neg hc]
    have hkeys : keysOf (ts ++ [makeNode s]) = keysOf ts ++ [s] := by
      simp [keysOf, makeNode]
    rw [hkeys]
    simp

/-- Key membership after the creation fold of one step. -/
theorem mem_keys_foldl_insertNew (scripts : List String) :
    ∀ (ts : List TaskNode) (x : String),
      x ∈ keysOf (scripts.foldl insertNew ts) ↔ x ∈ keysOf ts ∨ x ∈ scripts := by
  induction scripts with
  | nil =>
    intro ts x
    simp
  | cons a scripts ih =>
    intro ts x
    simp only [List.foldl_cons]
    rw [ih (insertNew ts a) x, mem_keys_insertNew ts a x]
    constructor
    · rintro ((hm | rfl) | hm)
      · exact Or.inl hm
      · exact Or.inr (List.mem_cons_self _ _)
      · exact Or.inr (List.mem_cons_of_mem a hm)
    · rintro (hm | hm)
      · exact Or.inl (Or.inl hm)
      · rcases List.mem_cons.mp hm with rfl | hm2
        · exact Or.inl (Or.inr rfl)
        · exact Or.inr hm2

/-- Well-formedness is kept by the creation fold. -/
theorem nodesOk_foldl_insertNew (scripts : List String) :
    ∀ ts : List TaskNode, NodesOk ts → NodesOk (scripts.foldl insertNew ts) := by
  induction scripts with
  | nil =>
    intro ts h
    exact h
  | cons a scripts ih =>
    intro ts h
    exact ih (insertNew ts a) (nodesOk_insertNew ts a h)

/-- Key sequence is kept by the two edge-linking folds (both mutations keep
the script field). -/
theorem keysOf_foldl_updNode (scripts : List String)
    (f : String → TaskNode → TaskNode)
    (hf : ∀ s t, (f s t).script = t.script) :
    ∀ ts : List TaskNode,
      keysOf (scripts.foldl (fun ts s => updNode ts s (f s)) ts) = keysOf ts := by
  induction scripts with
  | nil =>
    intro ts
    rfl
  | cons a scripts ih =>
    intro ts
    simp only [List.foldl_cons]
    rw [ih (updNode ts a (f a)), keysOf_updNode ts a (f a) (hf a)]

/-- Well-formedness is kept by the edge-linking folds when each mutation
keeps the script and the edge lists duplicate-free. -/
theorem nodesOk_foldl_updNode (scripts : List String)
    (f : String → TaskNode → TaskNode)
    (hf : ∀ s t, (f s t).script = t.script)
    (hok : ∀ s t, t.parents.Nodup ∧ t.children.Nodup →
      (f s t).parents.Nodup ∧ (f s t).children.Nodup) :
    ∀ ts : List TaskNode, NodesOk ts →
      NodesOk (scripts.foldl (fun ts s => updNode ts s (f s)) ts) := by
  induction scripts with
  | nil =>
    intro ts h
    exact h
  | cons a scripts ih =>
    intro ts h
    exact ih (updNode ts a (f a)) (nodesOk_updNode ts a (f a) (hf a) (hok a) h)

/-- Key membership after one whole step. -/
theorem keysOf_processStep (tp : List TaskNode × List String) (step : StepSpec)
    (x : String) :
    x ∈ keysOf (processStep tp step).1 ↔ x ∈ keysOf tp.1 ∨ x ∈ stepScripts step := by
  unfold processStep
  dsimp only
  rw [keysOf_foldl_updNode tp.2
      (fun _s t => { t with children := get_uniq (t.children ++ stepScripts step) })
      (fun _ _ => rfl),
    keysOf_foldl_updNode (stepScripts step)
      (fun _s t => { t with parents := get_uniq (t.parents ++ tp.2) })
      (fun _ _ => rfl)]
  exact mem_keys_foldl_insertNew (stepScripts step) tp.1 x

/-- Well-formedness is kept by one whole step: new nodes enter with empty
edge lists and both link mutations install `get_uniq` results. -/
theorem nodesOk_processStep (tp : List TaskNode × List String) (step : StepSpec)
    (h : NodesOk tp.1) : NodesOk (processStep tp step).1 := by
  unfold processStep
  dsimp only
  refine nodesOk_foldl_updNode tp.2
    (fun _s t => { t with children := get_uniq (t.children ++ stepScripts step) })
    (fun _ _ => rfl)
    (fun s t ht => ⟨ht.1, get_uniq_nodup _⟩) _ ?_
  refine nodesOk_foldl_updNode (stepScripts step)
    (fun _s t => { t with parents := get_uniq (t.parents ++ tp.2) })
    (fun _ _ => rfl)
    (fun s t ht => ⟨get_uniq_nodup _, ht.2⟩) _ ?_
  exact nodesOk_foldl_insertNew (stepScripts step) tp.1 h

/-- Key membership across the steps of one job. -/
theorem keysOf_foldl_processStep (steps : List StepSpec) :
    ∀ (ts : List TaskNode) (prev : List String) (x : String),
      x ∈ keysOf ((steps.foldl processStep (ts, prev)).1) ↔
        x ∈ keysOf ts ∨ ∃ st ∈ steps, x ∈ stepScripts st := by
  induction steps with
  | nil =>
    intro ts prev x
    simp
  | cons st steps ih =>
    intro ts prev x
    simp only [List.foldl_cons]
    rcases hps : processStep (ts, prev) st with ⟨ts1, prev1⟩
    rw [ih ts1 prev1 x]
    have hk : x ∈ keysOf ts1 ↔ x ∈ keysOf ts ∨ x ∈ stepScripts st := by
      have hmem := keysOf_processStep (ts, prev) st x
      rw [hps] at hmem
      exact hmem
    rw [hk]
    constructor
    · rintro ((hm | hm) | hm)
      · exact Or.inl hm
      · exact Or.inr ⟨st, List.mem_cons_self _ _, hm⟩
      · rcases hm with ⟨st2, hst2, hx⟩
        exact Or.inr ⟨st2, List.mem_cons_of_mem _ hst2, hx⟩
    · rintro (hm | ⟨st2, hst2, hx⟩)
      · exact Or.inl (Or.inl hm)
      · rcases List.mem_cons.mp hst2 with rfl | h2
        · exact Or.inl (Or.inr hx)
        · exact Or.inr ⟨st2, h2, hx⟩

/-- Well-formedness across the steps of one job. -/
theorem nodesOk_foldl_processStep (steps : List StepSpec) :
    ∀ (ts : List TaskNode) (prev : List String), NodesOk ts →
      NodesOk ((steps.foldl processStep (ts, prev)).1) := by
  induction steps with
  | nil =>
    intro ts prev h
    exact h
  | cons st steps ih =>
    intro ts prev h
    simp only [List.foldl_cons]
    rcases hps : processStep (ts, prev) st with ⟨ts1, prev1⟩
    have h1 := nodesOk_processStep (ts, prev) st h
    rw [hps] at h1
    exact ih ts1 prev1 h1

/-- Key membership across all jobs. -/
theorem keysOf_foldl_processJob (jobs : List JobSpec) :
    ∀ (ts : List TaskNode) (x : String),
      x ∈ keysOf (jobs.foldl processJob ts) ↔
        x ∈ keysOf ts ∨ ∃ j ∈ jobs, ∃ st ∈ j.steps, x ∈ stepScripts st := by
  induction jobs with
  | nil =>
    intro ts x
    simp
  | cons j jobs ih =>
    intro ts x
    simp only [List.foldl_cons]
    rw [ih (processJob ts j) x]
    simp only [processJob]
    rw [keysOf_foldl_processStep j.steps ts [] x]
    constructor
    · rintro ((hm | ⟨st, hst, hx⟩) | ⟨j2, hj2, hrest⟩)
      · exact Or.inl hm
      · exact Or.inr ⟨j, List.mem_cons_self _ _, st, hst, hx⟩
      · exact Or.inr ⟨j2, List.mem_cons_of_mem _ hj2, hrest⟩
    · rintro (hm | ⟨j2, hj2, hrest⟩)
      · exact Or.inl (Or.inl hm)
      · rcases List.mem_cons.mp hj2 with rfl | h2
        · exact Or.inl (Or.inr hrest)
        · exact Or.inr ⟨j2, h2, hrest⟩

/-- Well-formedness across all jobs. -/
theorem nodesOk_foldl_processJob (jobs : List JobSpec) :
    ∀ ts : List TaskNode, NodesOk ts → NodesOk (jobs.foldl processJob ts) := by
  induction jobs with
  | nil =>
    intro ts h
    exact h
  | cons j jobs ih =>
    intro ts h
    exact ih (processJob ts j) (nodesOk_foldl_processStep j.steps ts [] h)

/-- The built graph is well-formed. -/
theorem nodesOk_list_tasks (jobs : List JobSpec) : NodesOk (list_tasks jobs) :=
  nodesOk_foldl_processJob jobs [] ⟨List.nodup_nil, by simp⟩

/-- Claim C8. The graph built by `list_tasks` has pairwise-distinct script
identifiers; for every script there is exactly one task when some job step
references it and none otherwise, however many jobs or steps reference it;
and re-encountered identifiers union their parent and child edge sets
without duplicate edges (every node's `parents`/`children` list is
duplicate-free, being produced by `get_uniq`). -/
theorem c8_one_task_per_script (jobs : List JobSpec) :
    (keysOf (list_tasks jobs)).Nodup
    ∧ (∀ s, ((list_tasks jobs).countP fun t => t.script == s)
        = if ∃ j ∈ jobs, ∃ st ∈ j.steps, s ∈ stepScripts st then 1 else 0)
    ∧ (∀ t ∈ list_tasks jobs, t.parents.Nodup ∧ t.children.Nodup) := by
  have hok := nodesOk_list_tasks jobs
  refine ⟨hok.1, ?_, hok.2⟩
  intro s
  have hcp : ((list_tasks jobs).countP fun t => t.script == s)
      = (keysOf (list_tasks jobs)).count s := by
    rw [keysOf, List.count_eq_countP, List.countP_map]
    rfl
  have hmemiff : s ∈ keysOf (list_tasks jobs) ↔
      ∃ j ∈ jobs, ∃ st ∈ j.steps, s ∈ stepScripts st := by
    have haux := keysOf_foldl_processJob jobs [] s
    rw [show (list_tasks jobs) = jobs.foldl processJob [] from rfl]
    rw [haux]
    simp [keysOf]
  by_cases hm : ∃ j ∈ jobs, ∃ st ∈ j.steps, s ∈ stepScripts st
  · rw [if_pos hm, hcp]
    have h1 : 0 < (keysOf (list_tasks jobs)).count s :=
      List.count_pos_iff.mpr (hmemiff.mpr hm)
    have h2 : (keysOf (list_tasks jobs)).count s ≤ 1 :=
      List.nodup_iff_count_le_one.mp hok.1 s
    omega
  · rw [if_neg hm, hcp]
    exact List.count_eq_zero.mpr fun hmem => hm (hmemiff.mp hmem)

/-- Witness for claim C8 at a concrete job list: script "a.py" is referenced
by both jobs yet appears exactly once, an unreferenced script appears zero
times, and the doubly-linked node "a.py" has duplicate-free edges. -/
theorem c8_one_task_per_script_witness :
    ((list_tasks
        [{ name := "j1",
           steps := [StepSpec.single "a.py", StepSpec.group ["b.py", "c.py"]] },
         { name := "j2",
           steps := [StepSpec.single "a.py", StepSpec.single "d.py"] }]).countP
      fun t => t.script == "a.py") = 1
    ∧ ((list_tasks
        [{ name := "j1",
           steps := [StepSpec.single "a.py", StepSpec.group ["b.py", "c.py"]] },
         { name := "j2",
           steps := [StepSpec.single "a.py", StepSpec.single "d.py"] }]).countP
      fun t => t.script == "zz.py") = 0 := by
  constructor
  · rw [(c8_one_task_per_script
      [{ name := "j1",
         steps := [StepSpec.single "a.py", StepSpec.group ["b.py", "c.py"]] },
       { name := "j2",
         steps := [StepSpec.single "a.py", StepSpec.single "d.py"] }]).2.1 "a.py"]
    rw [if_pos (by decide)]
  · rw [(c8_one_task_per_script
      [{ name := "j1",
         steps := [StepSpec.single "a.py", StepSpec.group ["b.py", "c.py"]] },
       { name := "j2",
         steps := [StepSpec.single "a.py", StepSpec.single "d.py"] }]).2.1 "zz.py"]
    rw [if_neg (by decide)]
